import Mathlib

/-!
Verification development for `src/msit_dl.py`, a scraper that scans MSIT
press-release listing pages, extracts article ids and attachment
descriptors with regular expressions, and downloads attachments through
an external curl process.

The embedding models:
* the two regular expressions (`fn_detail\((\d+)\)` and
  `fn_download\('(\d+)',\s*'(\d+)',\s*'(\w+)'\)`) as left-to-right,
  non-overlapping scanners over `List Char`; the character classes
  `\d`, `\w`, `\s` are modelled on their ASCII behaviour
  (`Char.isDigit`, alphanumeric-or-underscore, `Char.isWhitespace`);
* the filesystem as an association list from paths to byte sizes;
* curl invocations as an oracle (`Env.curl`) giving the process exit
  code and the file, if any, the process left at the output path;
* page and detail fetches as oracles returning either markup or an
  exception (`Except Unit String`);
* `main` as a fold over the sorted deduplicated article ids, recording
  a trace of issued POSTs and the per-extension tally.
-/

namespace MsitDl

/-- The apostrophe character, written via its code point. -/
def squote : Char := Char.ofNat 39

/-- Drop the literal `ps` from the front of `l`; `none` when `l` does not
start with the literal. -/
def eatLit : List Char → List Char → Option (List Char)
  | [], l => some l
  | _ :: _, [] => none
  | a :: ps, b :: ls => if a = b then eatLit ps ls else none

/-- Split off the maximal run of characters satisfying `p` (a greedy
character-class match, exact here because in every use the character
following the run can never satisfy `p`). -/
def takeRun (p : Char → Bool) : List Char → List Char × List Char
  | [] => ([], [])
  | c :: cs =>
    if p c then
      let r := takeRun p cs
      (c :: r.1, r.2)
    else ([], c :: cs)

/-- Python `\d` on its ASCII fragment. -/
def digitB (c : Char) : Bool := c.isDigit

/-- Python `\w` on its ASCII fragment: alphanumeric or underscore. -/
def wordB (c : Char) : Bool := c.isAlphanum || c = '_'

/-- Python `\s` on its ASCII fragment. -/
def spaceB (c : Char) : Bool := c.isWhitespace

theorem eatLit_length {ps l r : List Char} (h : eatLit ps l = some r) :
    r.length + ps.length = l.length := by
  induction ps generalizing l with
  | nil =>
    simp [eatLit] at h
    simp [h]
  | cons a ps ih =>
    cases l with
    | nil => simp [eatLit] at h
    | cons b ls =>
      simp only [eatLit] at h
      by_cases hab : a = b
      · simp only [hab, if_pos rfl] at h
        have := ih h
        simp [List.length_cons, ← this]
        omega
      · simp [hab] at h

theorem eatLit_le {ps l r : List Char} (h : eatLit ps l = some r) :
    r.length ≤ l.length := by
  have := eatLit_length h
  omega

theorem eatLit_lt {ps l r : List Char} (hps : ps ≠ [])
    (h : eatLit ps l = some r) : r.length < l.length := by
  have := eatLit_length h
  have : 0 < ps.length := List.length_pos.mpr hps
  omega

theorem takeRun_length (p : Char → Bool) (l : List Char) :
    (takeRun p l).1.length + (takeRun p l).2.length = l.length := by
  induction l with
  | nil => simp [takeRun]
  | cons c cs ih =>
    simp only [takeRun]
    by_cases hc : p c
    · simp [hc, ih]
      omega
    · simp [hc]

theorem takeRun_le (p : Char → Bool) (l : List Char) :
    (takeRun p l).2.length ≤ l.length := by
  have := takeRun_length p l
  omega

/-- Literal head of the article-id pattern `fn_detail\((\d+)\)`. -/
def litDetail : List Char := "fn_detail(".toList

/-- Try to match `fn_detail\((\d+)\)` at the head of `l`; on success
return the captured digit group and the remainder after the match. -/
def matchDetailAt (l : List Char) : Option (String × List Char) :=
  match eatLit litDetail l with
  | none => none
  | some r1 =>
    match takeRun digitB r1 with
    | ([], _) => none
    | (d :: ds, rest) =>
      match rest with
      | [] => none
      | c :: r2 => if c = ')' then some (String.mk (d :: ds), r2) else none

theorem matchDetailAt_length {l : List Char} {s : String} {r : List Char}
    (h : matchDetailAt l = some (s, r)) : r.length < l.length := by
  unfold matchDetailAt at h
  split at h
  · cases h
  · rename_i r1 he
    have hr1 : r1.length < l.length := eatLit_lt (by simp [litDetail]) he
    split at h
    · cases h
    · rename_i d ds rest htr
      have hle : rest.length ≤ r1.length := by
        have hx := takeRun_le digitB r1
        rw [htr] at hx
        simpa using hx
      split at h
      · cases h
      · split at h
        · injection h with h
          injection h with h1 h2
          subst h2
          simp only [List.length_cons] at hle
          omega
        · cases h

/-- Left-to-right non-overlapping scan for `fn_detail\((\d+)\)` with
explicit fuel; each step consumes one unit of fuel and strictly
shortens the list, so any fuel at least the list length is exact
(`scanDetailFuel_congr`). -/
def scanDetailFuel : Nat → List Char → List String
  | 0, _ => []
  | _ + 1, [] => []
  | fuel + 1, c :: cs =>
    match matchDetailAt (c :: cs) with
    | some (s, r) => s :: scanDetailFuel fuel r
    | none => scanDetailFuel fuel cs

/-- Left-to-right non-overlapping scan for `fn_detail\((\d+)\)`,
mirroring `re.findall` in `get_article_ids`. -/
def scanDetail (l : List Char) : List String := scanDetailFuel l.length l

theorem scanDetailFuel_congr :
    ∀ (fuel fuel' : Nat) (l : List Char), l.length ≤ fuel →
      l.length ≤ fuel' → scanDetailFuel fuel l = scanDetailFuel fuel' l
  | 0, 0, _, _, _ => rfl
  | 0, _ + 1, l, h, _ => by
    have : l = [] := List.eq_nil_of_length_eq_zero (Nat.le_zero.mp h)
    rw [this]
    rfl
  | _ + 1, 0, l, _, h => by
    have : l = [] := List.eq_nil_of_length_eq_zero (Nat.le_zero.mp h)
    rw [this]
    rfl
  | _ + 1, _ + 1, [], _, _ => rfl
  | fuel + 1, fuel' + 1, c :: cs, h, h' => by
    rw [scanDetailFuel, scanDetailFuel]
    cases hm : matchDetailAt (c :: cs) with
    | some sr =>
      obtain ⟨s, r⟩ := sr
      have hlt : r.length < (c :: cs).length := matchDetailAt_length hm
      simp only [List.length_cons] at h h' hlt
      show s :: scanDetailFuel fuel r = s :: scanDetailFuel fuel' r
      rw [scanDetailFuel_congr fuel fuel' r (by omega) (by omega)]
    | none =>
      simp only [List.length_cons] at h h'
      show scanDetailFuel fuel cs = scanDetailFuel fuel' cs
      rw [scanDetailFuel_congr fuel fuel' cs (by omega) (by omega)]

/-- One extracted attachment descriptor, as built in `get_file_info`. -/
structure FileInfo where
  atchFileNo : String
  fileOrd : String
  ext : String
deriving DecidableEq

/-- Literal head of the attachment pattern, `fn_download('`. -/
def litDownload : List Char := "fn_download(".toList ++ [squote]

/-- Match the regex fragment `',\s*'` (closing quote, comma, optional
whitespace, opening quote). -/
def eatSep (l : List Char) : Option (List Char) :=
  match eatLit [squote, ','] l with
  | none => none
  | some r => eatLit [squote] (takeRun spaceB r).2

theorem eatSep_le {l r : List Char} (h : eatSep l = some r) :
    r.length ≤ l.length := by
  unfold eatSep at h
  cases he : eatLit [squote, ','] l with
  | none => simp [he] at h
  | some r1 =>
    simp only [he] at h
    calc r.length ≤ (takeRun spaceB r1).2.length := eatLit_le h
      _ ≤ r1.length := takeRun_le _ _
      _ ≤ l.length := eatLit_le he

/-- Try to match `fn_download\('(\d+)',\s*'(\d+)',\s*'(\w+)'\)` at the
head of `l`; on success return the three captured groups and the
remainder after the match. -/
def matchDownloadAt (l : List Char) : Option (FileInfo × List Char) :=
  match eatLit litDownload l with
  | none => none
  | some r1 =>
    match takeRun digitB r1 with
    | ([], _) => none
    | (d1 :: ds1, rest1) =>
      match eatSep rest1 with
      | none => none
      | some r2 =>
        match takeRun digitB r2 with
        | ([], _) => none
        | (d2 :: ds2, rest2) =>
          match eatSep rest2 with
          | none => none
          | some r3 =>
            match takeRun wordB r3 with
            | ([], _) => none
            | (w :: ws, rest3) =>
              match eatLit [squote, ')'] rest3 with
              | none => none
              | some r4 =>
                some (⟨String.mk (d1 :: ds1), String.mk (d2 :: ds2),
                       String.mk (w :: ws)⟩, r4)

theorem matchDownloadAt_length {l : List Char} {f : FileInfo}
    {r : List Char} (h : matchDownloadAt l = some (f, r)) :
    r.length < l.length := by
  unfold matchDownloadAt at h
  split at h
  · cases h
  · rename_i r1 he
    have hr1 : r1.length < l.length := eatLit_lt (by simp [litDownload]) he
    split at h
    · cases h
    · rename_i d1 ds1 rest1 ht1
      have hle1 : rest1.length ≤ r1.length := by
        have hx := takeRun_le digitB r1
        rw [ht1] at hx
        simpa using hx
      split at h
      · cases h
      · rename_i r2 hs1
        have hr2 : r2.length ≤ rest1.length := eatSep_le hs1
        split at h
        · cases h
        · rename_i d2 ds2 rest2 ht2
          have hle2 : rest2.length ≤ r2.length := by
            have hx := takeRun_le digitB r2
            rw [ht2] at hx
            simpa using hx
          split at h
          · cases h
          · rename_i r3 hs2
            have hr3 : r3.length ≤ rest2.length := eatSep_le hs2
            split at h
            · cases h
            · rename_i w ws rest3 ht3
              have hle3 : rest3.length ≤ r3.length := by
                have hx := takeRun_le wordB r3
                rw [ht3] at hx
                simpa using hx
              split at h
              · cases h
              · rename_i r4 hs3
                have hr4 : r4.length ≤ rest3.length := eatLit_le hs3
                injection h with h
                injection h with h1 h2
                subst h2
                omega

/-- Left-to-right non-overlapping scan for the attachment pattern with
explicit fuel; any fuel at least the list length is exact
(`scanDownloadFuel_congr`). -/
def scanDownloadFuel : Nat → List Char → List FileInfo
  | 0, _ => []
  | _ + 1, [] => []
  | fuel + 1, c :: cs =>
    match matchDownloadAt (c :: cs) with
    | some (f, r) => f :: scanDownloadFuel fuel r
    | none => scanDownloadFuel fuel cs

/-- Left-to-right non-overlapping scan for the attachment pattern,
mirroring `re.findall` in `get_file_info`. -/
def scanDownload (l : List Char) : List FileInfo :=
  scanDownloadFuel l.length l

theorem scanDownloadFuel_congr :
    ∀ (fuel fuel' : Nat) (l : List Char), l.length ≤ fuel →
      l.length ≤ fuel' → scanDownloadFuel fuel l = scanDownloadFuel fuel' l
  | 0, 0, _, _, _ => rfl
  | 0, _ + 1, l, h, _ => by
    have : l = [] := List.eq_nil_of_length_eq_zero (Nat.le_zero.mp h)
    rw [this]
    rfl
  | _ + 1, 0, l, _, h => by
    have : l = [] := List.eq_nil_of_length_eq_zero (Nat.le_zero.mp h)
    rw [this]
    rfl
  | _ + 1, _ + 1, [], _, _ => rfl
  | fuel + 1, fuel' + 1, c :: cs, h, h' => by
    rw [scanDownloadFuel, scanDownloadFuel]
    cases hm : matchDownloadAt (c :: cs) with
    | some fr =>
      obtain ⟨f, r⟩ := fr
      have hlt : r.length < (c :: cs).length := matchDownloadAt_length hm
      simp only [List.length_cons] at h h' hlt
      show f :: scanDownloadFuel fuel r = f :: scanDownloadFuel fuel' r
      rw [scanDownloadFuel_congr fuel fuel' r (by omega) (by omega)]
    | none =>
      simp only [List.length_cons] at h h'
      show scanDownloadFuel fuel cs = scanDownloadFuel fuel' cs
      rw [scanDownloadFuel_congr fuel fuel' cs (by omega) (by omega)]

/-- All matches of the `fn_detail` pattern in a listing page. -/
def findall_fn_detail (html : String) : List String := scanDetail html.data

/-- All matches of the `fn_download` pattern in a detail page. -/
def findall_fn_download (html : String) : List FileInfo :=
  scanDownload html.data

/-! ### Filesystem model

The filesystem is an association list from paths to byte sizes; `read`
is `os.path.exists` / `os.path.getsize`, `write` models a process
creating or truncating the file, `erase` models `os.remove`. -/

/-- Paths mapped to file sizes in bytes. -/
abbrev FS : Type := List (String × Nat)

/-- Size of the file at `p`, or `none` when no file exists there. -/
def FS.read : FS → String → Option Nat
  | [], _ => none
  | e :: fs, p => if e.1 = p then some e.2 else FS.read fs p

/-- Drop every entry for path `p`. -/
def FS.removeAll : FS → String → FS
  | [], _ => []
  | e :: fs, p =>
    if e.1 = p then FS.removeAll fs p else e :: FS.removeAll fs p

/-- Replace or create the file at `p` with an `n`-byte file. -/
def FS.write (fs : FS) (p : String) (n : Nat) : FS :=
  FS.removeAll fs p ++ [(p, n)]

/-- Remove the file at `p` (no-op when absent), as `os.remove`. -/
def FS.erase (fs : FS) (p : String) : FS :=
  FS.removeAll fs p

theorem FS.read_removeAll_self (fs : FS) (p : String) :
    FS.read (FS.removeAll fs p) p = none := by
  induction fs with
  | nil => rfl
  | cons e fs ih =>
    by_cases h1 : e.1 = p
    · simpa [FS.removeAll, h1] using ih
    · simpa [FS.removeAll, FS.read, h1] using ih

theorem FS.read_removeAll_ne (fs : FS) (p q : String) (hpq : p ≠ q) :
    FS.read (FS.removeAll fs q) p = FS.read fs p := by
  induction fs with
  | nil => rfl
  | cons e fs ih =>
    by_cases h1 : e.1 = q
    · have hne : ¬(e.1 = p) := by rw [h1]; exact fun hc => hpq hc.symm
      simp [FS.removeAll, FS.read, h1, hne, Ne.symm hpq, ih]
    · by_cases h2 : e.1 = p
      · simp [FS.removeAll, FS.read, h1, h2, hpq]
      · simp [FS.removeAll, FS.read, h1, h2, ih]

theorem FS.read_append (l1 l2 : FS) (p : String) :
    FS.read (l1 ++ l2) p =
      match FS.read l1 p with
      | some n => some n
      | none => FS.read l2 p := by
  induction l1 with
  | nil => rfl
  | cons e l1 ih =>
    by_cases h1 : e.1 = p
    · simp [FS.read, h1]
    · simp [FS.read, h1, ih]

theorem FS.read_write_self (fs : FS) (p : String) (n : Nat) :
    (fs.write p n).read p = some n := by
  unfold FS.write
  rw [FS.read_append, FS.read_removeAll_self]
  simp [FS.read]

theorem FS.read_write_ne (fs : FS) (p q : String) (n : Nat) (hpq : p ≠ q) :
    (fs.write q n).read p = fs.read p := by
  unfold FS.write
  rw [FS.read_append, FS.read_removeAll_ne fs p q hpq]
  cases hf : FS.read fs p with
  | none => simp [FS.read, Ne.symm hpq]
  | some m => simp

theorem FS.read_erase_self (fs : FS) (p : String) :
    (fs.erase p).read p = none :=
  FS.read_removeAll_self fs p

theorem FS.read_erase_ne (fs : FS) (p q : String) (hpq : p ≠ q) :
    (fs.erase q).read p = fs.read p :=
  FS.read_removeAll_ne fs p q hpq

/-! ### The downloader, `curl_download` -/

/-- Outcome of one curl process run in `curl_download`: the process
exit code, and the file the process left at the output path (`none`
when it wrote nothing there). -/
structure CurlRes where
  rc : Nat
  written : Option Nat
deriving DecidableEq

/-- Filesystem state at the output path right after the curl process of
`curl_download` has run. -/
def afterCurl (res : CurlRes) (outpath : String) (fs : FS) : FS :=
  match res.written with
  | some n => fs.write outpath n
  | none => fs

/-- The POST body built in `curl_download`:
`atchFileNo=<id>&fileOrd=<ord>&fileBtn=A`. -/
def postBody (atchFileNo fileOrd : String) : String :=
  "atchFileNo=" ++ atchFileNo ++ "&fileOrd=" ++ fileOrd ++ "&fileBtn=A"

/-- Embedding of `curl_download` (lines 37-60 of `src/msit_dl.py`): run
curl, then return the byte count when the process exited with code 0
and the resulting file is strictly larger than 100 bytes; otherwise
remove whatever is at the output path and return 0. The returned pair
is the Python return value together with the final filesystem. -/
def curl_download (res : CurlRes) (outpath : String) (fs : FS) : Nat × FS :=
  let fs1 := afterCurl res outpath fs
  match fs1.read outpath with
  | some size =>
    if res.rc = 0 ∧ 100 < size then (size, fs1)
    else (0, fs1.erase outpath)
  | none => (0, fs1.erase outpath)

theorem curl_download_read_self (res : CurlRes) (outpath : String)
    (fs : FS) :
    ((curl_download res outpath fs).1 ≠ 0 →
      (curl_download res outpath fs).2.read outpath =
        some (curl_download res outpath fs).1 ∧
      100 < (curl_download res outpath fs).1) ∧
    ((curl_download res outpath fs).1 = 0 →
      (curl_download res outpath fs).2.read outpath = none) := by
  unfold curl_download
  cases hr : (afterCurl res outpath fs).read outpath with
  | none => simp only [hr]; simp [FS.read_erase_self]
  | some size =>
    simp only [hr]
    by_cases hc : res.rc = 0 ∧ 100 < size
    · rw [if_pos hc]
      constructor
      · intro _
        exact ⟨hr, hc.2⟩
      · intro h0
        exact absurd h0 (by omega)
    · rw [if_neg hc]
      simp [FS.read_erase_self]

theorem curl_download_read_ne (res : CurlRes) (outpath q : String)
    (fs : FS) (hq : q ≠ outpath) :
    (curl_download res outpath fs).2.read q = fs.read q := by
  have hac : (afterCurl res outpath fs).read q = fs.read q := by
    unfold afterCurl
    cases res.written with
    | none => rfl
    | some n => exact FS.read_write_ne _ _ _ _ hq
  unfold curl_download
  cases hr : (afterCurl res outpath fs).read outpath with
  | none =>
    simp only [hr]
    simpa [FS.read_erase_ne _ _ _ hq] using hac
  | some size =>
    simp only [hr]
    by_cases hc : res.rc = 0 ∧ 100 < size
    · rw [if_pos hc]
      exact hac
    · rw [if_neg hc]
      simpa [FS.read_erase_ne _ _ _ hq] using hac

/-! ### Deduplication

`get_file_info` deduplicates with a `seen` set while appending to a
`files` list, keeping the first occurrence of each triple;
`get_article_ids` and the orchestrator use Python `list(set(...))`,
whose iteration order is unspecified — we model it by the same
first-occurrence deduplication, and every claim about those values is
stated at the level of the underlying set or of the sorted output,
which do not depend on that choice. -/

/-- Keep the first occurrence of each element, drop later duplicates:
the head is kept and all its later copies are filtered out of the
deduplicated tail. -/
def dedupFirst {α : Type} [DecidableEq α] : List α → List α
  | [] => []
  | a :: l => a :: List.filter (fun b => decide (b ≠ a)) (dedupFirst l)

/-- The accumulator loop of `get_file_info` (lines 77-83 of
`src/msit_dl.py`): `seen` is the set of already-emitted triples,
`files` the output list built so far. -/
def seenLoop {α : Type} [DecidableEq α] :
    List α → List α → List α → List α
  | _, files, [] => files
  | seen, files, k :: ms =>
    if k ∈ seen then seenLoop seen files ms
    else seenLoop (k :: seen) (files ++ [k]) ms

theorem dedupFirst_sublist {α : Type} [DecidableEq α] (l : List α) :
    (dedupFirst l).Sublist l := by
  induction l with
  | nil => simp [dedupFirst]
  | cons a l ih =>
    rw [dedupFirst]
    exact List.Sublist.cons₂ a ((List.filter_sublist _).trans ih)

theorem mem_dedupFirst {α : Type} [DecidableEq α] (l : List α) (x : α) :
    x ∈ dedupFirst l ↔ x ∈ l := by
  induction l with
  | nil => simp [dedupFirst]
  | cons a l ih =>
    rw [dedupFirst]
    by_cases hx : x = a
    · simp [hx]
    · simp only [List.mem_cons, hx, false_or]
      rw [List.mem_filter]
      simp [hx, ih]

theorem dedupFirst_nodup {α : Type} [DecidableEq α] (l : List α) :
    (dedupFirst l).Nodup := by
  induction l with
  | nil => simp [dedupFirst]
  | cons a l ih =>
    rw [dedupFirst]
    refine List.nodup_cons.mpr ⟨?_, ih.filter _⟩
    intro hmem
    have := (List.mem_filter.mp hmem).2
    simp at this

theorem filter_cons_seen {α : Type} [DecidableEq α] (k : α)
    (seen ms : List α) :
    List.filter (fun b => decide (b ∉ k :: seen)) ms =
      List.filter (fun b => decide (b ≠ k))
        (List.filter (fun b => decide (b ∉ seen)) ms) := by
  rw [List.filter_filter]
  apply List.filter_congr
  intro b _
  by_cases hbk : b = k <;> by_cases hbs : b ∈ seen <;>
    simp [List.mem_cons, hbk, hbs]

theorem dedupFirst_filter {α : Type} [DecidableEq α] (p : α → Bool)
    (l : List α) :
    dedupFirst (List.filter p l) = List.filter p (dedupFirst l) := by
  induction l with
  | nil => rfl
  | cons a l ih =>
    rw [dedupFirst, List.filter_cons, List.filter_cons]
    by_cases hpa : p a = true
    · rw [if_pos hpa, if_pos hpa, dedupFirst, ih]
      have hcomm :
          List.filter (fun b => decide (b ≠ a)) (List.filter p (dedupFirst l)) =
            List.filter p
              (List.filter (fun b => decide (b ≠ a)) (dedupFirst l)) := by
        rw [List.filter_filter, List.filter_filter]
        apply List.filter_congr
        intro b _
        rw [Bool.and_comm]
      rw [hcomm]
    · have hpa' : p a = false := by
        cases hp : p a
        · rfl
        · exact absurd hp hpa
      rw [if_neg hpa, if_neg hpa, ih, List.filter_filter]
      apply List.filter_congr
      intro b _
      by_cases hba : b = a
      · rw [hba, hpa']
        simp
      · simp [hba]

theorem seenLoop_eq_dedupFirst {α : Type} [DecidableEq α]
    (ms seen files : List α) :
    seenLoop seen files ms =
      files ++ dedupFirst (List.filter (fun b => decide (b ∉ seen)) ms) := by
  induction ms generalizing seen files with
  | nil => simp [seenLoop, dedupFirst]
  | cons k ms ih =>
    by_cases hk : k ∈ seen
    · rw [seenLoop, if_pos hk, ih]
      have : (List.filter (fun b => decide (b ∉ seen)) (k :: ms)) =
          List.filter (fun b => decide (b ∉ seen)) ms := by
        simp [List.filter_cons, hk]
      rw [this]
    · rw [seenLoop, if_neg hk, ih]
      have h1 : (List.filter (fun b => decide (b ∉ seen)) (k :: ms)) =
          k :: List.filter (fun b => decide (b ∉ seen)) ms := by
        simp [List.filter_cons, hk]
      rw [h1, dedupFirst, filter_cons_seen k seen ms,
        dedupFirst_filter (fun b => decide (b ≠ k))]
      simp

/-- Pure part of `get_file_info` (lines 71-84): scan the detail-page
markup and deduplicate the matched triples keeping first occurrences. -/
def get_file_info_markup (html : String) : List FileInfo :=
  seenLoop [] [] (findall_fn_download html)

/-- Pure part of `get_article_ids` (lines 63-68): scan the listing-page
markup and collapse duplicates (Python `list(set(...))`; order
modelled as first occurrence, all claims are order-independent). -/
def get_article_ids_markup (html : String) : List String :=
  dedupFirst (findall_fn_detail html)

/-! ### Claim theorems for the downloader -/

/-- C1: `curl_download` reports success — a nonzero byte count — iff
the curl process exited with code 0 and the file it left at the target
path is strictly larger than 100 bytes; in particular a run that
produces a 50-byte file yields 0, and a clean run that produces a
500-byte file yields 500. -/
theorem claim1_curl_download_success_iff (res : CurlRes) (outpath : String)
    (fs : FS) :
    ((curl_download res outpath fs).1 ≠ 0 ↔
      res.rc = 0 ∧
        ∃ n, (afterCurl res outpath fs).read outpath = some n ∧ 100 < n)
    ∧ (res.written = some 50 → (curl_download res outpath fs).1 = 0)
    ∧ (res.rc = 0 → res.written = some 500 →
        (curl_download res outpath fs).1 = 500) := by
  refine ⟨?_, ?_, ?_⟩
  · unfold curl_download
    cases hr : (afterCurl res outpath fs).read outpath with
    | none =>
      simp only [hr]
      constructor
      · intro h
        exact absurd rfl h
      · rintro ⟨_, n, hn, _⟩
        cases hn
    | some size =>
      simp only [hr]
      by_cases hc : res.rc = 0 ∧ 100 < size
      · rw [if_pos hc]
        constructor
        · intro _
          exact ⟨hc.1, size, rfl, hc.2⟩
        · intro _
          have := hc.2
          omega
      · rw [if_neg hc]
        constructor
        · intro h
          exact absurd rfl h
        · rintro ⟨h0, n, hn, hgt⟩
          injection hn with hn
          exact absurd ⟨h0, by omega⟩ hc
  · intro hw
    have hr : (afterCurl res outpath fs).read outpath = some 50 := by
      unfold afterCurl
      rw [hw]
      exact FS.read_write_self fs outpath 50
    unfold curl_download
    simp only [hr]
    rw [if_neg (by rintro ⟨-, hx⟩; omega)]
  · intro h0 hw
    have hr : (afterCurl res outpath fs).read outpath = some 500 := by
      unfold afterCurl
      rw [hw]
      exact FS.read_write_self fs outpath 500
    unfold curl_download
    simp only [hr]
    rw [if_pos ⟨h0, by omega⟩]

/-- Witness for C1 at concrete inputs: a clean curl run leaving a
50-byte file returns 0, one leaving a 500-byte file returns 500. -/
theorem claim1_witness :
    (curl_download ⟨0, some 50⟩ "out" []).1 = 0 ∧
      (curl_download ⟨0, some 500⟩ "out" []).1 = 500 :=
  ⟨(claim1_curl_download_success_iff ⟨0, some 50⟩ "out" []).2.1 rfl,
    (claim1_curl_download_success_iff ⟨0, some 500⟩ "out" []).2.2 rfl rfl⟩

/-- C2: after any `curl_download` call either the return value exceeds
100 and is the exact size of the file now at the target path, or the
return value is 0 and no file exists at the target path (the failure
branch removed it); a return value strictly between 0 and 101 is
impossible. -/
theorem claim2_curl_download_cleanup (res : CurlRes) (outpath : String)
    (fs : FS) :
    ((100 < (curl_download res outpath fs).1 ∧
        (curl_download res outpath fs).2.read outpath =
          some (curl_download res outpath fs).1) ∨
      ((curl_download res outpath fs).1 = 0 ∧
        (curl_download res outpath fs).2.read outpath = none))
    ∧ ¬(0 < (curl_download res outpath fs).1 ∧
          (curl_download res outpath fs).1 ≤ 100) := by
  have h := curl_download_read_self res outpath fs
  by_cases h0 : (curl_download res outpath fs).1 = 0
  · refine ⟨Or.inr ⟨h0, h.2 h0⟩, ?_⟩
    rintro ⟨hlt, -⟩
    omega
  · obtain ⟨hread, hgt⟩ := h.1 h0
    refine ⟨Or.inl ⟨hgt, hread⟩, ?_⟩
    rintro ⟨-, hle⟩
    omega

/-- Witness for C2 at a concrete input: a clean curl run that left a
50-byte file fails the size check, so the call returns 0 and the file
is removed. -/
theorem claim2_witness :
    (curl_download ⟨0, some 50⟩ "out" []).1 = 0 ∧
      (curl_download ⟨0, some 50⟩ "out" []).2.read "out" = none := by
  have h := claim2_curl_download_cleanup ⟨0, some 50⟩ "out" []
  rcases h.1 with ⟨hgt, -⟩ | hok
  · exact absurd hgt (by decide)
  · exact hok

/-! ### Environment and orchestrator model

`Env` packs the three external effects: fetching a listing page,
fetching a detail page (both may raise, modelled with `Except Unit`),
and running the download curl process (its exit code and the file it
leaves at the output path). `main` is the loop of lines 112-178,
recording the processed article order, the issued POSTs and the
per-extension tally. -/

/-- External world: listing pages by page number, detail pages by
article id, and the behaviour of the download curl process given the
POST body and output path. -/
structure Env where
  listHtml : Nat → Except Unit String
  viewHtml : String → Except Unit String
  curl : String → String → CurlRes

/-- `get_article_ids` (lines 63-68): fetch the listing page and extract
the deduplicated article ids; fetch errors propagate. -/
def get_article_ids (env : Env) (page : Nat) : Except Unit (List String) :=
  (env.listHtml page).map get_article_ids_markup

/-- `get_file_info` (lines 71-84): fetch the detail page and extract
the deduplicated attachment descriptors; fetch errors propagate. -/
def get_file_info (env : Env) (ntt : String) : Except Unit (List FileInfo) :=
  (env.viewHtml ntt).map get_file_info_markup

/-- `os.path.join` for a relative file name on POSIX paths. -/
def pathJoin (d name : String) : String :=
  if d = "" then name
  else if d.data.getLast? = some '/' then d ++ name
  else d ++ "/" ++ name

/-- Output file name `msit-<articleId>.<ext>` (line 156). -/
def outName (ntt e : String) : String := "msit-" ++ ntt ++ "." ++ e

/-- Full output path of one attachment. -/
def outPath (outdir ntt e : String) : String := pathJoin outdir (outName ntt e)

/-- The accepted extensions of line 153. -/
def acceptedExts : List String := ["hwp", "hwpx", "odt"]

/-- The `downloaded` dictionary of line 130. -/
structure Tally where
  hwp : Nat
  hwpx : Nat
  odt : Nat
deriving DecidableEq

/-- `downloaded[ext] += 1`; only reachable for accepted extensions. -/
def Tally.bump (t : Tally) (e : String) : Tally :=
  if e = "hwp" then { t with hwp := t.hwp + 1 }
  else if e = "hwpx" then { t with hwpx := t.hwpx + 1 }
  else if e = "odt" then { t with odt := t.odt + 1 }
  else t

/-- Trace record of one issued download POST: the article and
descriptor it came from, the body and output path passed to curl, and
the value `curl_download` returned. -/
structure Post where
  ntt : String
  ext : String
  atch : String
  ord : String
  body : String
  path : String
  size : Nat
deriving DecidableEq

/-- Orchestrator state: the filesystem, the tally, the POST trace and
the processed-article trace. -/
structure St where
  fs : FS
  tally : Tally
  posts : List Post
  articles : List String
deriving DecidableEq

/-- The download curl run for one descriptor, as `curl_download` is
called on line 163 with the output path of line 156. -/
def dlResult (env : Env) (outdir ntt : String) (st : St)
    (f : FileInfo) : Nat × FS :=
  curl_download
    (env.curl (postBody f.atchFileNo f.fileOrd) (outPath outdir ntt f.ext))
    (outPath outdir ntt f.ext) st.fs

/-- The trace record of the POST issued for one descriptor. -/
def newPost (env : Env) (outdir ntt : String) (st : St)
    (f : FileInfo) : Post :=
  ⟨ntt, f.ext, f.atchFileNo, f.fileOrd,
    postBody f.atchFileNo f.fileOrd, outPath outdir ntt f.ext,
    (dlResult env outdir ntt st f).1⟩

/-- Lines 162-168: issue the POST for one descriptor whose target does
not exist yet, recording the attempt and bumping the tally on
success. -/
def doDownload (env : Env) (outdir ntt : String) (st : St)
    (f : FileInfo) : St :=
  { st with
      fs := (dlResult env outdir ntt st f).2,
      posts := st.posts ++ [newPost env outdir ntt st f],
      tally :=
        if (dlResult env outdir ntt st f).1 ≠ 0 then st.tally.bump f.ext
        else st.tally }

theorem doDownload_fs (env : Env) (outdir ntt : String) (st : St)
    (f : FileInfo) :
    (doDownload env outdir ntt st f).fs = (dlResult env outdir ntt st f).2 :=
  rfl

theorem doDownload_posts (env : Env) (outdir ntt : String) (st : St)
    (f : FileInfo) :
    (doDownload env outdir ntt st f).posts =
      st.posts ++ [newPost env outdir ntt st f] :=
  rfl

theorem doDownload_tally (env : Env) (outdir ntt : String) (st : St)
    (f : FileInfo) :
    (doDownload env outdir ntt st f).tally =
      if (dlResult env outdir ntt st f).1 ≠ 0 then st.tally.bump f.ext
      else st.tally :=
  rfl

/-- Lines 151-170: handle one attachment descriptor of an article —
skip non-accepted extensions, skip-and-count already-existing targets,
otherwise download. -/
def processFile (env : Env) (outdir ntt : String) (st : St)
    (f : FileInfo) : St :=
  if f.ext ∈ acceptedExts then
    match st.fs.read (outPath outdir ntt f.ext) with
    | some _ => { st with tally := st.tally.bump f.ext }
    | none => doDownload env outdir ntt st f
  else st

/-- Lines 132-172: handle one article — record it, fetch its file info
(an error is caught and the loop continues), then handle each
descriptor in order. -/
def processArticle (env : Env) (outdir : String) (st : St)
    (ntt : String) : St :=
  let st1 : St := { st with articles := st.articles ++ [ntt] }
  match get_file_info env ntt with
  | .error _ => st1
  | .ok files => List.foldl (processFile env outdir ntt) st1 files

/-- Lines 116-125: scan pages 1..pages, collecting ids; a page whose
fetch raises is caught and contributes nothing. -/
def collectIds (env : Env) (pages : Nat) : List String :=
  List.foldl
    (fun acc p =>
      match get_article_ids env p with
      | .ok ids => acc ++ ids
      | .error _ => acc)
    [] (List.range' 1 pages)

/-- Python string `<=`: lexicographic comparison of code points, a
proper prefix comparing smaller. -/
def lexLe : List Char → List Char → Bool
  | [], _ => true
  | _ :: _, [] => false
  | a :: as, b :: bs =>
    if a.toNat < b.toNat then true
    else if b.toNat < a.toNat then false
    else lexLe as bs

/-- Python `s <= t` on strings. -/
def pyLe (s t : String) : Bool := lexLe s.data t.data

/-- The ordering relation used to model Python `sorted` on strings. -/
def pyStrLe (s t : String) : Prop := pyLe s t = true

instance : DecidableRel pyStrLe := fun s t =>
  inferInstanceAs (Decidable (pyLe s t = true))

/-- Line 127 and 132: `sorted(list(set(ids)))` — deduplicate and sort
ascending by the Python string order. -/
def sortIds (l : List String) : List String :=
  List.insertionSort pyStrLe (dedupFirst l)

theorem charToNat_inj {a b : Char} (h : a.toNat = b.toNat) : a = b :=
  Char.eq_of_val_eq (UInt32.ext h)

theorem lexLe_total (as bs : List Char) :
    lexLe as bs = true ∨ lexLe bs as = true := by
  induction as generalizing bs with
  | nil => exact Or.inl rfl
  | cons a as ih =>
    cases bs with
    | nil => exact Or.inr rfl
    | cons b bs =>
      by_cases hab : a.toNat < b.toNat
      · exact Or.inl (by simp [lexLe, hab])
      · by_cases hba : b.toNat < a.toNat
        · exact Or.inr (by simp [lexLe, hba])
        · rcases ih bs with h | h
          · exact Or.inl (by simp [lexLe, hab, hba, h])
          · exact Or.inr (by simp [lexLe, hab, hba, h])

theorem lexLe_trans {as bs cs : List Char} (h1 : lexLe as bs = true)
    (h2 : lexLe bs cs = true) : lexLe as cs = true := by
  induction as generalizing bs cs with
  | nil => rfl
  | cons a as ih =>
    cases bs with
    | nil => simp [lexLe] at h1
    | cons b bs =>
      cases cs with
      | nil => simp [lexLe] at h2
      | cons c cs =>
        have key1 : a.toNat < b.toNat ∨
            (a.toNat = b.toNat ∧ lexLe as bs = true) := by
          by_cases hab : a.toNat < b.toNat
          · exact Or.inl hab
          · by_cases hba : b.toNat < a.toNat
            · simp [lexLe, hab, hba] at h1
            · exact Or.inr ⟨by omega, by simpa [lexLe, hab, hba] using h1⟩
        have key2 : b.toNat < c.toNat ∨
            (b.toNat = c.toNat ∧ lexLe bs cs = true) := by
          by_cases hbc : b.toNat < c.toNat
          · exact Or.inl hbc
          · by_cases hcb : c.toNat < b.toNat
            · simp [lexLe, hbc, hcb] at h2
            · exact Or.inr ⟨by omega, by simpa [lexLe, hbc, hcb] using h2⟩
        rcases key1 with hab | ⟨hab, hrec1⟩ <;>
          rcases key2 with hbc | ⟨hbc, hrec2⟩
        · simp [lexLe, show a.toNat < c.toNat by omega]
        · simp [lexLe, show a.toNat < c.toNat by omega]
        · simp [lexLe, show a.toNat < c.toNat by omega]
        · simp [lexLe, show ¬(a.toNat < c.toNat) by omega,
            show ¬(c.toNat < a.toNat) by omega]
          exact ih hrec1 hrec2

theorem lexLe_antisymm {as bs : List Char} (h1 : lexLe as bs = true)
    (h2 : lexLe bs as = true) : as = bs := by
  induction as generalizing bs with
  | nil =>
    cases bs with
    | nil => rfl
    | cons b bs => simp [lexLe] at h2
  | cons a as ih =>
    cases bs with
    | nil => simp [lexLe] at h1
    | cons b bs =>
      simp only [lexLe] at h1 h2
      by_cases hab : a.toNat < b.toNat
      · simp [hab] at h2
        omega
      · by_cases hba : b.toNat < a.toNat
        · simp [hab, hba] at h1
        · simp [hab, hba] at h1 h2
          have : a = b := charToNat_inj (by omega)
          rw [this, ih h1 h2]

instance : IsTotal String pyStrLe :=
  ⟨fun a b => lexLe_total a.data b.data⟩

instance : IsTrans String pyStrLe :=
  ⟨fun _ _ _ h1 h2 => lexLe_trans h1 h2⟩

instance : IsAntisymm String pyStrLe :=
  ⟨fun a b h1 h2 => by
    cases a with
    | mk da =>
      cases b with
      | mk db => exact congrArg String.mk (lexLe_antisymm h1 h2)⟩

/-- The command-line arguments that matter to the model. -/
structure Args where
  pages : Nat
  outdir : String

/-- Initial orchestrator state over a starting filesystem. -/
def initSt (fs0 : FS) : St := ⟨fs0, ⟨0, 0, 0⟩, [], []⟩

/-- The whole `main` run (lines 112-178) over an environment, the
arguments, and the initial filesystem. -/
def main (env : Env) (a : Args) (fs0 : FS) : St :=
  List.foldl (processArticle env a.outdir) (initSt fs0)
    (sortIds (collectIds env a.pages))

/-! ### Claim theorems for the extractors -/

theorem seenLoop_nil_nil {α : Type} [DecidableEq α] (ms : List α) :
    seenLoop [] [] ms = dedupFirst ms := by
  rw [seenLoop_eq_dedupFirst]
  have hid : List.filter (fun b => decide (b ∉ ([] : List α))) ms = ms := by
    induction ms with
    | nil => rfl
    | cons m ms ih => simp [List.filter_cons, ih]
  rw [hid]
  rfl

/-- Helper to write markup containing single quotes without quote
literals: wrap a string in apostrophes. -/
def quoted (s : String) : String := String.mk (squote :: s.data ++ [squote])

/-- Sample detail-page markup with a duplicated attachment link. -/
def sampleDetailMarkup : String :=
  "a fn_download(" ++ quoted "55" ++ ", " ++ quoted "1" ++ ", " ++
    quoted "hwp" ++ ") b fn_download(" ++ quoted "55" ++ "," ++ quoted "1" ++
    "," ++ quoted "hwp" ++ ") c fn_download(" ++ quoted "56" ++ ", " ++
    quoted "2" ++ ", " ++ quoted "pdf" ++ ")"

/-- Sample listing-page markup: `fn_detail(1001)` twice and
`fn_detail(1002)` once. -/
def sampleListMarkup : String :=
  "xx fn_detail(1001) yy fn_detail(1001) z fn_detail(1002) w"

/-- C3: for every detail-page markup, `get_file_info` returns the
sequence of matches of the `fn_download` pattern with exact duplicate
triples collapsed to one entry, keeping the order of first
occurrences (it equals the first-occurrence deduplication of the raw
match list, has no duplicates, has exactly the matched triples as
members, is a sublist of the match sequence, and is empty whenever
there is no match). -/
theorem claim3_get_file_info_dedup (html : String) :
    get_file_info_markup html = dedupFirst (findall_fn_download html)
    ∧ (get_file_info_markup html).Nodup
    ∧ (∀ x, x ∈ get_file_info_markup html ↔ x ∈ findall_fn_download html)
    ∧ (get_file_info_markup html).Sublist (findall_fn_download html)
    ∧ (findall_fn_download html = [] → get_file_info_markup html = []) := by
  have he : get_file_info_markup html =
      dedupFirst (findall_fn_download html) := seenLoop_nil_nil _
  refine ⟨he, ?_, ?_, ?_, ?_⟩
  · rw [he]
    exact dedupFirst_nodup _
  · intro x
    rw [he]
    exact mem_dedupFirst _ x
  · rw [he]
    exact dedupFirst_sublist _
  · intro h0
    rw [he, h0]
    rfl

/-- Witness for C3: markup with no `fn_download` matches yields the
empty descriptor list, and the sample markup with a duplicated triple
collapses to the two distinct descriptors in first-occurrence order. -/
theorem claim3_witness :
    (findall_fn_download "no attachments here" = [] ∧
      get_file_info_markup "no attachments here" = [])
    ∧ get_file_info_markup sampleDetailMarkup =
        [⟨"55", "1", "hwp"⟩, ⟨"56", "2", "pdf"⟩] :=
  ⟨⟨by decide,
    (claim3_get_file_info_dedup "no attachments here").2.2.2.2 (by decide)⟩,
    by decide⟩

/-- C4: for every listing-page markup, `get_article_ids` returns
exactly the set of distinct identifiers matched by the `fn_detail`
pattern, duplicates collapsed; the sample markup with `fn_detail(1001)`
twice and `fn_detail(1002)` once yields exactly the set
`{"1001", "1002"}`. -/
theorem claim4_get_article_ids_set (html : String) :
    (get_article_ids_markup html).toFinset =
      (findall_fn_detail html).toFinset
    ∧ (get_article_ids_markup html).Nodup
    ∧ (∀ x, x ∈ get_article_ids_markup html ↔ x ∈ findall_fn_detail html)
    ∧ (get_article_ids_markup sampleListMarkup).toFinset =
        ({"1001", "1002"} : Finset String) := by
  refine ⟨?_, dedupFirst_nodup _, fun x => mem_dedupFirst _ x, by decide⟩
  apply Finset.ext
  intro x
  simp only [List.mem_toFinset]
  exact mem_dedupFirst _ x

/-! ### Loop lemmas for `main` -/

theorem processFile_articles (env : Env) (outdir ntt : String) (st : St)
    (f : FileInfo) :
    (processFile env outdir ntt st f).articles = st.articles := by
  unfold processFile
  split
  · split <;> rfl
  · rfl

theorem foldl_processFile_articles (env : Env) (outdir ntt : String)
    (files : List FileInfo) (st : St) :
    (List.foldl (processFile env outdir ntt) st files).articles =
      st.articles := by
  induction files generalizing st with
  | nil => rfl
  | cons f files ih => rw [List.foldl_cons, ih, processFile_articles]

theorem processArticle_articles (env : Env) (outdir : String) (st : St)
    (ntt : String) :
    (processArticle env outdir st ntt).articles =
      st.articles ++ [ntt] := by
  unfold processArticle
  cases get_file_info env ntt with
  | error e => rfl
  | ok files => exact foldl_processFile_articles env outdir ntt files _

theorem foldl_processArticle_articles (env : Env) (outdir : String)
    (order : List String) (st : St) :
    (List.foldl (processArticle env outdir) st order).articles =
      st.articles ++ order := by
  induction order generalizing st with
  | nil => simp
  | cons ntt order ih =>
    rw [List.foldl_cons, ih, processArticle_articles]
    simp

theorem processFile_read_preserved {env : Env} {outdir ntt : String}
    {st : St} {f : FileInfo} {p : String} {s : Nat}
    (hp : st.fs.read p = some s) :
    (processFile env outdir ntt st f).fs.read p = some s := by
  by_cases hf : f.ext ∈ acceptedExts
  · rw [processFile, if_pos hf]
    cases hr : st.fs.read (outPath outdir ntt f.ext) with
    | some m => exact hp
    | none =>
      have hne : p ≠ outPath outdir ntt f.ext := by
        intro he
        rw [he, hr] at hp
        cases hp
      simp only [hr]
      show (dlResult env outdir ntt st f).2.read p = some s
      rw [dlResult, curl_download_read_ne _ _ _ _ hne]
      exact hp
  · rw [processFile, if_neg hf]
    exact hp

theorem foldl_processFile_read_preserved {env : Env} {outdir ntt : String}
    {files : List FileInfo} {st : St} {p : String} {s : Nat}
    (hp : st.fs.read p = some s) :
    (List.foldl (processFile env outdir ntt) st files).fs.read p =
      some s := by
  induction files generalizing st with
  | nil => exact hp
  | cons f files ih =>
    rw [List.foldl_cons]
    exact ih (processFile_read_preserved hp)

theorem processArticle_read_preserved {env : Env} {outdir : String}
    {st : St} {ntt p : String} {s : Nat}
    (hp : st.fs.read p = some s) :
    (processArticle env outdir st ntt).fs.read p = some s := by
  unfold processArticle
  cases get_file_info env ntt with
  | error e => exact hp
  | ok files => exact foldl_processFile_read_preserved hp

theorem foldl_processArticle_read_preserved {env : Env} {outdir : String}
    {order : List String} {st : St} {p : String} {s : Nat}
    (hp : st.fs.read p = some s) :
    (List.foldl (processArticle env outdir) st order).fs.read p =
      some s := by
  induction order generalizing st with
  | nil => exact hp
  | cons ntt order ih =>
    rw [List.foldl_cons]
    exact ih (processArticle_read_preserved hp)

/-! ### Master invariant of the download loop

Files present at the start of a run are never touched; every recorded
POST has the body and path shapes of the source, an accepted
extension, and targets a path that had no file at the start of the
run; and every path receives at most one successful download, with a
successful download leaving a file in place. -/

/-- Number of successful recorded POSTs targeting path `p`. -/
def succCount (posts : List Post) (p : String) : Nat :=
  List.countP (fun pp => decide (pp.path = p ∧ pp.size ≠ 0)) posts

/-- Invariant of the orchestrator loop relative to the filesystem
`fs0` the run started from. -/
def MasterInv (outdir : String) (fs0 : FS) (st : St) : Prop :=
  (∀ p s, fs0.read p = some s → st.fs.read p = some s) ∧
  (∀ pp ∈ st.posts,
      pp.body = postBody pp.atch pp.ord ∧
      pp.path = outPath outdir pp.ntt pp.ext ∧
      pp.ext ∈ acceptedExts ∧
      fs0.read pp.path = none) ∧
  (∀ p, succCount st.posts p ≤ 1 ∧
      (1 ≤ succCount st.posts p → (st.fs.read p).isSome))

theorem succCount_append (posts : List Post) (pp : Post) (p : String) :
    succCount (posts ++ [pp]) p =
      succCount posts p +
        (if pp.path = p ∧ pp.size ≠ 0 then 1 else 0) := by
  unfold succCount
  rw [List.countP_append]
  simp [List.countP_cons]

theorem processFile_inv {env : Env} {outdir ntt : String} {fs0 : FS}
    {st : St} {f : FileInfo} (hI : MasterInv outdir fs0 st) :
    MasterInv outdir fs0 (processFile env outdir ntt st f) := by
  obtain ⟨hpres, hposts, hsucc⟩ := hI
  by_cases hf : f.ext ∈ acceptedExts
  · rw [processFile, if_pos hf]
    cases hr : st.fs.read (outPath outdir ntt f.ext) with
    | some m => exact ⟨hpres, hposts, hsucc⟩
    | none =>
      simp only [hr]
      have hq : ∀ q, q ≠ outPath outdir ntt f.ext →
          (dlResult env outdir ntt st f).2.read q = st.fs.read q := by
        intro q hqne
        rw [dlResult, curl_download_read_ne _ _ _ _ hqne]
      have hself := curl_download_read_self
        (env.curl (postBody f.atchFileNo f.fileOrd)
          (outPath outdir ntt f.ext))
        (outPath outdir ntt f.ext) st.fs
      have hcount0 : succCount st.posts (outPath outdir ntt f.ext) = 0 := by
        rcases hsucc (outPath outdir ntt f.ext) with ⟨hle, him⟩
        by_contra hc
        have : (st.fs.read (outPath outdir ntt f.ext)).isSome :=
          him (by omega)
        rw [hr] at this
        cases this
      refine ⟨?_, ?_, ?_⟩
      · intro p s hps
        have hst : st.fs.read p = some s := hpres p s hps
        have hne : p ≠ outPath outdir ntt f.ext := by
          intro he
          rw [he, hr] at hst
          cases hst
        rw [doDownload_fs, hq p hne]
        exact hst
      · intro pp hpp
        rw [doDownload_posts] at hpp
        rcases List.mem_append.mp hpp with hold | hnew
        · exact hposts pp hold
        · have hppe : pp = newPost env outdir ntt st f :=
            List.mem_singleton.mp hnew
          subst hppe
          refine ⟨rfl, rfl, hf, ?_⟩
          cases h0 : fs0.read (newPost env outdir ntt st f).path with
          | none => rfl
          | some s =>
            have hcontra := hpres _ _ h0
            have hpath : (newPost env outdir ntt st f).path =
                outPath outdir ntt f.ext := rfl
            rw [hpath, hr] at hcontra
            cases hcontra
      · intro p
        rw [doDownload_posts, doDownload_fs, succCount_append]
        have hpath : (newPost env outdir ntt st f).path =
            outPath outdir ntt f.ext := rfl
        have hsize : (newPost env outdir ntt st f).size =
            (dlResult env outdir ntt st f).1 := rfl
        by_cases hp : p = outPath outdir ntt f.ext
        · subst hp
          rw [hcount0]
          by_cases hs : (dlResult env outdir ntt st f).1 ≠ 0
          · rw [if_pos ⟨hpath, by rw [hsize]; exact hs⟩]
            refine ⟨by omega, fun _ => ?_⟩
            rw [dlResult] at hs ⊢
            rw [(hself.1 hs).1]
            rfl
          · rw [if_neg (by
              rintro ⟨-, hc⟩
              rw [hsize] at hc
              exact hs hc)]
            refine ⟨by omega, fun hc => ?_⟩
            omega
        · have hne : (outPath outdir ntt f.ext) ≠ p := fun he => hp he.symm
          rw [if_neg (by
            rintro ⟨hc, -⟩
            rw [hpath] at hc
            exact hne hc)]
          rcases hsucc p with ⟨hle, him⟩
          refine ⟨by omega, fun hc => ?_⟩
          rw [hq p (fun he => hne he.symm)]
          exact him (by omega)
  · rw [processFile, if_neg hf]
    exact ⟨hpres, hposts, hsucc⟩

theorem foldl_processFile_inv {env : Env} {outdir ntt : String}
    {fs0 : FS} {files : List FileInfo} {st : St}
    (hI : MasterInv outdir fs0 st) :
    MasterInv outdir fs0 (List.foldl (processFile env outdir ntt) st files) := by
  induction files generalizing st with
  | nil => exact hI
  | cons f files ih =>
    rw [List.foldl_cons]
    exact ih (processFile_inv hI)

theorem processArticle_inv {env : Env} {outdir : String} {fs0 : FS}
    {st : St} {ntt : String} (hI : MasterInv outdir fs0 st) :
    MasterInv outdir fs0 (processArticle env outdir st ntt) := by
  unfold processArticle
  cases get_file_info env ntt with
  | error e => exact hI
  | ok files => exact foldl_processFile_inv hI

theorem foldl_processArticle_inv {env : Env} {outdir : String}
    {fs0 : FS} {order : List String} {st : St}
    (hI : MasterInv outdir fs0 st) :
    MasterInv outdir fs0
      (List.foldl (processArticle env outdir) st order) := by
  induction order generalizing st with
  | nil => exact hI
  | cons ntt order ih =>
    rw [List.foldl_cons]
    exact ih (processArticle_inv hI)

theorem initSt_inv (outdir : String) (fs0 : FS) :
    MasterInv outdir fs0 (initSt fs0) := by
  refine ⟨fun p s h => h, ?_, ?_⟩
  · intro pp hpp
    cases hpp
  · intro p
    exact ⟨by simp [succCount, initSt], by simp [succCount, initSt]⟩

theorem main_inv (env : Env) (a : Args) (fs0 : FS) :
    MasterInv a.outdir fs0 (main env a fs0) :=
  foldl_processArticle_inv (initSt_inv a.outdir fs0)

/-! ### Behaviour under a fully successful remote -/

/-- Every curl download in the environment exits 0 and leaves a file
strictly larger than 100 bytes. -/
def AllSuccess (env : Env) : Prop :=
  ∀ b p, (env.curl b p).rc = 0 ∧
    ∃ n, 100 < n ∧ (env.curl b p).written = some n

theorem curl_download_of_success {res : CurlRes} {p : String} {fs : FS}
    {n : Nat} (hrc : res.rc = 0) (hw : res.written = some n)
    (hn : 100 < n) :
    (curl_download res p fs).1 = n ∧
      (curl_download res p fs).2.read p = some n := by
  have hr : (afterCurl res p fs).read p = some n := by
    unfold afterCurl
    rw [hw]
    exact FS.read_write_self fs p n
  unfold curl_download
  simp only [hr]
  rw [if_pos ⟨hrc, hn⟩]
  exact ⟨rfl, hr⟩

theorem processFile_read_isSome {env : Env} {outdir ntt : String}
    {st : St} {f : FileInfo} {p : String}
    (hp : (st.fs.read p).isSome = true) :
    ((processFile env outdir ntt st f).fs.read p).isSome = true := by
  rcases Option.isSome_iff_exists.mp hp with ⟨s, hs⟩
  rw [processFile_read_preserved hs]
  rfl

theorem foldl_processFile_read_isSome {env : Env} {outdir ntt : String}
    {files : List FileInfo} {st : St} {p : String}
    (hp : (st.fs.read p).isSome = true) :
    (((List.foldl (processFile env outdir ntt) st files).fs.read p).isSome)
      = true := by
  rcases Option.isSome_iff_exists.mp hp with ⟨s, hs⟩
  rw [foldl_processFile_read_preserved hs]
  rfl

theorem processArticle_read_isSome {env : Env} {outdir : String}
    {st : St} {ntt p : String} (hp : (st.fs.read p).isSome = true) :
    ((processArticle env outdir st ntt).fs.read p).isSome = true := by
  rcases Option.isSome_iff_exists.mp hp with ⟨s, hs⟩
  rw [processArticle_read_preserved hs]
  rfl

theorem foldl_processArticle_read_isSome {env : Env} {outdir : String}
    {order : List String} {st : St} {p : String}
    (hp : (st.fs.read p).isSome = true) :
    (((List.foldl (processArticle env outdir) st order).fs.read p).isSome)
      = true := by
  rcases Option.isSome_iff_exists.mp hp with ⟨s, hs⟩
  rw [foldl_processArticle_read_preserved hs]
  rfl

theorem processFile_success_present {env : Env} {outdir ntt : String}
    {st : St} {f : FileInfo} (hAS : AllSuccess env)
    (hf : f.ext ∈ acceptedExts) :
    (((processFile env outdir ntt st f).fs.read
        (outPath outdir ntt f.ext)).isSome) = true := by
  rw [processFile, if_pos hf]
  cases hr : st.fs.read (outPath outdir ntt f.ext) with
  | some m =>
    show (st.fs.read (outPath outdir ntt f.ext)).isSome = true
    rw [hr]
    rfl
  | none =>
    simp only [hr]
    rw [doDownload_fs]
    obtain ⟨hrc, n, hn, hw⟩ :=
      hAS (postBody f.atchFileNo f.fileOrd) (outPath outdir ntt f.ext)
    rw [dlResult, (curl_download_of_success hrc hw hn).2]
    rfl

/-- The descriptor list an article yields (empty when the fetch
raises). -/
def filesOf (env : Env) (ntt : String) : List FileInfo :=
  match get_file_info env ntt with
  | .error _ => []
  | .ok files => files

theorem foldl_processFile_success_present {env : Env}
    {outdir ntt : String} (hAS : AllSuccess env) :
    ∀ (files : List FileInfo) (st : St), ∀ f ∈ files,
      f.ext ∈ acceptedExts →
      (((List.foldl (processFile env outdir ntt) st files).fs.read
          (outPath outdir ntt f.ext)).isSome) = true := by
  intro files
  induction files with
  | nil =>
    intro st f hf
    cases hf
  | cons g files ih =>
    intro st f hf hacc
    rw [List.foldl_cons]
    rcases List.mem_cons.mp hf with he | hmem
    · subst he
      exact foldl_processFile_read_isSome
        (processFile_success_present hAS hacc)
    · exact ih _ f hmem hacc

theorem processArticle_success_present {env : Env} {outdir : String}
    {st : St} {ntt : String} (hAS : AllSuccess env) :
    ∀ f ∈ filesOf env ntt, f.ext ∈ acceptedExts →
      (((processArticle env outdir st ntt).fs.read
          (outPath outdir ntt f.ext)).isSome) = true := by
  intro f hf hacc
  unfold filesOf at hf
  unfold processArticle
  cases hfi : get_file_info env ntt with
  | error e =>
    rw [hfi] at hf
    cases hf
  | ok files =>
    rw [hfi] at hf
    exact foldl_processFile_success_present hAS files _ f hf hacc

theorem foldl_processArticle_success_present {env : Env}
    {outdir : String} (hAS : AllSuccess env) :
    ∀ (order : List String) (st : St), ∀ ntt ∈ order,
      ∀ f ∈ filesOf env ntt, f.ext ∈ acceptedExts →
      (((List.foldl (processArticle env outdir) st order).fs.read
          (outPath outdir ntt f.ext)).isSome) = true := by
  intro order
  induction order with
  | nil =>
    intro st ntt hmem
    cases hmem
  | cons a order ih =>
    intro st ntt hmem f hf hacc
    rw [List.foldl_cons]
    rcases List.mem_cons.mp hmem with he | hmem2
    · subst he
      exact foldl_processArticle_read_isSome
        (processArticle_success_present hAS f hf hacc)
    · exact ih _ ntt hmem2 f hf hacc

theorem processFile_exists_state {env : Env} {outdir ntt : String}
    {st : St} {f : FileInfo}
    (hex : f.ext ∈ acceptedExts →
      (st.fs.read (outPath outdir ntt f.ext)).isSome = true) :
    (processFile env outdir ntt st f).fs = st.fs ∧
      (processFile env outdir ntt st f).posts = st.posts := by
  by_cases hf : f.ext ∈ acceptedExts
  · rw [processFile, if_pos hf]
    have hs := hex hf
    cases hr : st.fs.read (outPath outdir ntt f.ext) with
    | none =>
      rw [hr] at hs
      cases hs
    | some m => simp [hr]
  · rw [processFile, if_neg hf]
    exact ⟨rfl, rfl⟩

theorem foldl_processFile_exists_state {env : Env}
    {outdir ntt : String} :
    ∀ (files : List FileInfo) (st : St),
      (∀ f ∈ files, f.ext ∈ acceptedExts →
        (st.fs.read (outPath outdir ntt f.ext)).isSome = true) →
      (List.foldl (processFile env outdir ntt) st files).fs = st.fs ∧
        (List.foldl (processFile env outdir ntt) st files).posts =
          st.posts := by
  intro files
  induction files with
  | nil =>
    intro st _
    exact ⟨rfl, rfl⟩
  | cons g files ih =>
    intro st hex
    rw [List.foldl_cons]
    obtain ⟨hfs, hposts⟩ :=
      processFile_exists_state (hex g (List.mem_cons_self g files))
    have hrest := ih (processFile env outdir ntt st g) (by
      intro f hf hacc
      rw [hfs]
      exact hex f (List.mem_cons_of_mem g hf) hacc)
    exact ⟨hrest.1.trans hfs, hrest.2.trans hposts⟩

theorem processArticle_exists_state {env : Env} {outdir : String}
    {st : St} {ntt : String}
    (hex : ∀ f ∈ filesOf env ntt, f.ext ∈ acceptedExts →
      (st.fs.read (outPath outdir ntt f.ext)).isSome = true) :
    (processArticle env outdir st ntt).fs = st.fs ∧
      (processArticle env outdir st ntt).posts = st.posts := by
  unfold filesOf at hex
  unfold processArticle
  cases hfi : get_file_info env ntt with
  | error e => exact ⟨rfl, rfl⟩
  | ok files =>
    rw [hfi] at hex
    exact foldl_processFile_exists_state files _ hex

theorem foldl_processArticle_exists_state {env : Env}
    {outdir : String} :
    ∀ (order : List String) (st : St),
      (∀ ntt ∈ order, ∀ f ∈ filesOf env ntt, f.ext ∈ acceptedExts →
        (st.fs.read (outPath outdir ntt f.ext)).isSome = true) →
      (List.foldl (processArticle env outdir) st order).fs = st.fs ∧
        (List.foldl (processArticle env outdir) st order).posts =
          st.posts := by
  intro order
  induction order with
  | nil =>
    intro st _
    exact ⟨rfl, rfl⟩
  | cons a order ih =>
    intro st hex
    rw [List.foldl_cons]
    obtain ⟨hfs, hposts⟩ :=
      processArticle_exists_state (hex a (List.mem_cons_self a order))
    have hrest := ih (processArticle env outdir st a) (by
      intro ntt hmem f hf hacc
      rw [hfs]
      exact hex ntt (List.mem_cons_of_mem a hmem) f hf hacc)
    exact ⟨hrest.1.trans hfs, hrest.2.trans hposts⟩

/-- Fold `Tally.bump` over a list of extensions. -/
def bumpAll (t : Tally) (es : List String) : Tally :=
  List.foldl Tally.bump t es

/-- The accepted extensions of one article's descriptors, in order. -/
def acceptedExtsOf (env : Env) (ntt : String) : List String :=
  (List.filter (fun f => decide (f.ext ∈ acceptedExts))
    (filesOf env ntt)).map (fun f => f.ext)

/-- The accepted extensions of a whole article order, concatenated. -/
def allExts (env : Env) : List String → List String
  | [] => []
  | ntt :: order => acceptedExtsOf env ntt ++ allExts env order

theorem bumpAll_append (t : Tally) (l1 l2 : List String) :
    bumpAll t (l1 ++ l2) = bumpAll (bumpAll t l1) l2 := by
  unfold bumpAll
  rw [List.foldl_append]

theorem processFile_tally_success {env : Env} {outdir ntt : String}
    {st : St} {f : FileInfo} (hAS : AllSuccess env) :
    (processFile env outdir ntt st f).tally =
      if f.ext ∈ acceptedExts then st.tally.bump f.ext else st.tally := by
  by_cases hf : f.ext ∈ acceptedExts
  · rw [processFile, if_pos hf, if_pos hf]
    cases hr : st.fs.read (outPath outdir ntt f.ext) with
    | some m => rfl
    | none =>
      simp only [hr]
      rw [doDownload_tally]
      obtain ⟨hrc, n, hn, hw⟩ :=
        hAS (postBody f.atchFileNo f.fileOrd) (outPath outdir ntt f.ext)
      have h1 : (dlResult env outdir ntt st f).1 = n := by
        rw [dlResult]
        exact (curl_download_of_success hrc hw hn).1
      rw [if_pos (by rw [h1]; omega)]
  · rw [processFile, if_neg hf, if_neg hf]

theorem foldl_processFile_tally_success {env : Env}
    {outdir ntt : String} (hAS : AllSuccess env) :
    ∀ (files : List FileInfo) (st : St),
      (List.foldl (processFile env outdir ntt) st files).tally =
        bumpAll st.tally
          ((List.filter (fun f => decide (f.ext ∈ acceptedExts))
            files).map (fun f => f.ext)) := by
  intro files
  induction files with
  | nil =>
    intro st
    rfl
  | cons g files ih =>
    intro st
    rw [List.foldl_cons, ih, List.filter_cons]
    by_cases hg : g.ext ∈ acceptedExts
    · rw [processFile_tally_success hAS, if_pos hg]
      simp only [decide_eq_true hg]
      rfl
    · rw [processFile_tally_success hAS, if_neg hg]
      simp only [decide_eq_false hg]
      rfl

theorem processArticle_tally_success {env : Env} {outdir : String}
    {st : St} {ntt : String} (hAS : AllSuccess env) :
    (processArticle env outdir st ntt).tally =
      bumpAll st.tally (acceptedExtsOf env ntt) := by
  unfold processArticle acceptedExtsOf filesOf
  cases hfi : get_file_info env ntt with
  | error e => rfl
  | ok files => exact foldl_processFile_tally_success hAS files _

theorem foldl_processArticle_tally_success {env : Env}
    {outdir : String} (hAS : AllSuccess env) :
    ∀ (order : List String) (st : St),
      (List.foldl (processArticle env outdir) st order).tally =
        bumpAll st.tally (allExts env order) := by
  intro order
  induction order with
  | nil =>
    intro st
    rfl
  | cons a order ih =>
    intro st
    rw [List.foldl_cons, ih, processArticle_tally_success hAS, allExts,
      bumpAll_append]

theorem main_tally_success {env : Env} (hAS : AllSuccess env)
    (a : Args) (fs0 : FS) :
    (main env a fs0).tally =
      bumpAll ⟨0, 0, 0⟩ (allExts env (sortIds (collectIds env a.pages))) :=
  foldl_processArticle_tally_success hAS _ _

/-! ### Claim theorems for the orchestrator -/

/-- C5: when the target file of an accepted attachment already exists,
processing it issues no POST and writes nothing — the state is
unchanged except that the tally is still incremented; moreover files
present when a run starts are never modified, no POST of a second run
targets a file the first run left in place, and against a fully
successful remote the second of two identical runs issues no POST at
all and reports the same per-extension tally as the first. -/
theorem claim5_idempotence (env : Env) (a : Args) (fs0 : FS) :
    (∀ (st : St) (ntt : String) (f : FileInfo) (s : Nat),
      f.ext ∈ acceptedExts →
      st.fs.read (outPath a.outdir ntt f.ext) = some s →
      processFile env a.outdir ntt st f =
        { st with tally := st.tally.bump f.ext })
    ∧ (∀ p s, fs0.read p = some s → (main env a fs0).fs.read p = some s)
    ∧ (∀ pp ∈ (main env a (main env a fs0).fs).posts,
        (main env a fs0).fs.read pp.path = none)
    ∧ (AllSuccess env →
        (main env a (main env a fs0).fs).posts = [] ∧
        (main env a (main env a fs0).fs).tally = (main env a fs0).tally) := by
  refine ⟨?_, (main_inv env a fs0).1, ?_, ?_⟩
  · intro st ntt f s hacc hsome
    rw [processFile, if_pos hacc, hsome]
  · intro pp hpp
    exact ((main_inv env a (main env a fs0).fs).2.1 pp hpp).2.2.2
  · intro hAS
    constructor
    · have hpresent :=
        @foldl_processArticle_success_present env a.outdir hAS
          (sortIds (collectIds env a.pages)) (initSt fs0)
      exact (@foldl_processArticle_exists_state env a.outdir
        (sortIds (collectIds env a.pages)) (initSt (main env a fs0).fs)
        (fun ntt hm f hf hacc => hpresent ntt hm f hf hacc)).2
    · rw [main_tally_success hAS, main_tally_success hAS]

/-- Environment used by witnesses: every listing page is the sample
listing markup, every detail page the sample detail markup, every curl
run exits 0 leaving a 500-byte file. -/
def wEnv : Env :=
  ⟨fun _ => .ok sampleListMarkup,
    fun _ => .ok sampleDetailMarkup,
    fun _ _ => ⟨0, some 500⟩⟩

/-- Arguments used by witnesses: one page, output directory `d`. -/
def wArgs : Args := ⟨1, "d"⟩

theorem wEnv_allSuccess : AllSuccess wEnv :=
  fun _ _ => ⟨rfl, 500, by omega, rfl⟩

/-- A state whose filesystem already holds the target of article 1's
hwp attachment. -/
def wSt : St := ⟨[("d/msit-1.hwp", 321)], ⟨0, 0, 0⟩, [], []⟩

/-- A sample accepted descriptor. -/
def wFile : FileInfo := ⟨"5", "1", "hwp"⟩

/-- Witness for C5: with the target already on disk the state is
unchanged except for the tally, and running the pipeline twice against
the fully successful sample remote leaves the second run with no
POSTs. -/
theorem claim5_witness :
    processFile wEnv "d" "1" wSt wFile =
      { wSt with tally := wSt.tally.bump "hwp" } ∧
    (main wEnv wArgs (main wEnv wArgs []).fs).posts = [] :=
  ⟨(claim5_idempotence wEnv wArgs []).1 wSt "1" wFile 321 (by decide)
      (by decide),
    ((claim5_idempotence wEnv wArgs []).2.2.2 wEnv_allSuccess).1⟩

/-- C6: an attachment descriptor whose extension is not accepted (for
example `pdf`) is never downloaded: processing it leaves the state
fully unchanged (no POST, no file write, no tally change), and every
POST a whole run records carries an accepted extension. -/
theorem claim6_extension_filter (env : Env) (a : Args) (fs0 : FS) :
    (∀ (outdir ntt : String) (st : St) (f : FileInfo),
      f.ext ∉ acceptedExts → processFile env outdir ntt st f = st)
    ∧ (∀ pp ∈ (main env a fs0).posts, pp.ext ∈ acceptedExts) := by
  constructor
  · intro outdir ntt st f hf
    rw [processFile, if_neg hf]
  · intro pp hpp
    exact ((main_inv env a fs0).2.1 pp hpp).2.2.1

/-- Witness for C6: a `pdf` descriptor leaves the state untouched. -/
theorem claim6_witness :
    processFile wEnv "d" "1" (initSt []) ⟨"9", "9", "pdf"⟩ = initSt [] :=
  (claim6_extension_filter wEnv wArgs []).1 "d" "1" (initSt [])
    ⟨"9", "9", "pdf"⟩ (by decide)

/-- C7: every POST a run issues has body exactly
`atchFileNo=<handle>&fileOrd=<ordinal>&fileBtn=A` for the descriptor's
handle and ordinal and targets exactly the path obtained by joining the
output directory with `msit-<articleId>.<ext>`; in particular
descriptor ('55','1','hwp') gives body
`atchFileNo=55&fileOrd=1&fileBtn=A`, article 1001 with extension hwp
gives file name `msit-1001.hwp`, and for an output directory without a
trailing slash the path is literally `<outdir>/msit-<articleId>.<ext>`. -/
theorem claim7_post_shape (env : Env) (a : Args) (fs0 : FS) :
    (∀ pp ∈ (main env a fs0).posts,
      pp.body = postBody pp.atch pp.ord ∧
      pp.path = outPath a.outdir pp.ntt pp.ext)
    ∧ postBody "55" "1" = "atchFileNo=55&fileOrd=1&fileBtn=A"
    ∧ outName "1001" "hwp" = "msit-1001.hwp"
    ∧ (∀ outdir ntt e : String, ¬outdir = "" →
        ¬outdir.data.getLast? = some '/' →
        outPath outdir ntt e = outdir ++ "/" ++ outName ntt e) := by
  refine ⟨?_, rfl, rfl, ?_⟩
  · intro pp hpp
    have h := (main_inv env a fs0).2.1 pp hpp
    exact ⟨h.1, h.2.1⟩
  · intro outdir ntt e h1 h2
    rw [outPath, pathJoin, if_neg h1, if_neg h2]

/-- The first POST the witness run issues. -/
def wPost : Post :=
  ⟨"1001", "hwp", "55", "1", postBody "55" "1",
    outPath "d" "1001" "hwp", 500⟩

/-- Witness for C7: in the sample run the recorded POST for article
1001's hwp attachment has exactly the prescribed body and path, and
the concrete body, file name and joined path evaluate as in the
claim. -/
theorem claim7_witness :
    (postBody "55" "1" = "atchFileNo=55&fileOrd=1&fileBtn=A" ∧
      outName "1001" "hwp" = "msit-1001.hwp") ∧
    wPost.body = postBody wPost.atch wPost.ord ∧
    wPost.path = outPath "d" wPost.ntt wPost.ext ∧
    outPath "d" "1001" "hwp" = "d/msit-1001.hwp" :=
  ⟨⟨(claim7_post_shape wEnv wArgs []).2.1,
      (claim7_post_shape wEnv wArgs []).2.2.1⟩,
    ((claim7_post_shape wEnv wArgs []).1 wPost (by decide)).1,
    ((claim7_post_shape wEnv wArgs []).1 wPost (by decide)).2,
    by
      rw [(claim7_post_shape wEnv wArgs []).2.2.2 "d" "1001" "hwp"
        (by decide) (by decide)]
      decide⟩

/-- Replace the markup of one listing page. -/
def withListHtml (env : Env) (p : Nat) (v : Except Unit String) : Env :=
  ⟨fun q => if q = p then v else env.listHtml q, env.viewHtml, env.curl⟩

/-- Replace the markup of one detail page. -/
def withViewHtml (env : Env) (ntt : String) (v : Except Unit String) :
    Env :=
  ⟨env.listHtml, fun m => if m = ntt then v else env.viewHtml m, env.curl⟩

/-- C8: an exception while fetching a listing page or a detail page is
caught locally and acts exactly like an empty page: the collected ids
are those of the same environment with that page reading as empty
markup, and the whole run equals the run of the same environment with
that article's detail page reading as empty markup — the run continues
with the remaining pages and articles. -/
theorem claim8_error_isolation :
    (∀ (env : Env) (p : Nat) (n : Nat), env.listHtml p = .error () →
      collectIds env n = collectIds (withListHtml env p (.ok "")) n)
    ∧ (∀ (env : Env) (a : Args) (fs0 : FS) (ntt : String),
        env.viewHtml ntt = .error () →
        main env a fs0 = main (withViewHtml env ntt (.ok "")) a fs0) := by
  constructor
  · intro env p n herr
    unfold collectIds
    have step : ∀ (ps : List Nat) (acc : List String),
        List.foldl (fun acc q =>
          match get_article_ids env q with
          | .ok ids => acc ++ ids
          | .error _ => acc) acc ps =
        List.foldl (fun acc q =>
          match get_article_ids (withListHtml env p (.ok "")) q with
          | .ok ids => acc ++ ids
          | .error _ => acc) acc ps := by
      intro ps
      induction ps with
      | nil =>
        intro acc
        rfl
      | cons q ps ih =>
        intro acc
        rw [List.foldl_cons, List.foldl_cons]
        have hstep : (match get_article_ids env q with
            | .ok ids => acc ++ ids
            | .error _ => acc) =
            (match get_article_ids (withListHtml env p (.ok "")) q with
            | .ok ids => acc ++ ids
            | .error _ => acc) := by
          by_cases hq : q = p
          · subst hq
            have h2 : (withListHtml env q (.ok "")).listHtml q = .ok "" := by
              unfold withListHtml
              simp
            rw [get_article_ids, get_article_ids, herr, h2]
            show acc = acc ++ get_article_ids_markup ""
            rw [show get_article_ids_markup "" = [] from rfl,
              List.append_nil]
          · have h2 : (withListHtml env p (.ok "")).listHtml q =
                env.listHtml q := by
              unfold withListHtml
              simp [hq]
            rw [get_article_ids, get_article_ids, h2]
        rw [hstep, ih]
    exact step _ []
  · intro env a fs0 ntt herr
    have hart : ∀ (st : St) (m : String),
        processArticle env a.outdir st m =
          processArticle (withViewHtml env ntt (.ok "")) a.outdir st m := by
      intro st m
      unfold processArticle
      by_cases hm : m = ntt
      · subst hm
        have h2 : (withViewHtml env m (.ok "")).viewHtml m = .ok "" := by
          unfold withViewHtml
          simp
        rw [get_file_info, get_file_info, herr, h2]
        show _ = List.foldl _ _ (get_file_info_markup "")
        rw [show get_file_info_markup "" = [] from rfl]
        rfl
      · have h2 : (withViewHtml env ntt (.ok "")).viewHtml m =
            env.viewHtml m := by
          unfold withViewHtml
          simp [hm]
        rw [get_file_info, get_file_info, h2]
        rfl
    have hfold : ∀ (order : List String) (st : St),
        List.foldl (processArticle env a.outdir) st order =
          List.foldl
            (processArticle (withViewHtml env ntt (.ok "")) a.outdir)
            st order := by
      intro order
      induction order with
      | nil =>
        intro st
        rfl
      | cons m order ih =>
        intro st
        rw [List.foldl_cons, List.foldl_cons, hart st m, ih]
    exact hfold _ _

/-- An environment whose every fetch raises. -/
def errEnv : Env := ⟨fun _ => .error (), fun _ => .error (), fun _ _ => ⟨1, none⟩⟩

/-- Witness for C8: with every fetch raising, the collected ids and the
whole run agree with those of the empty-markup environment. -/
theorem claim8_witness :
    collectIds errEnv 1 = collectIds (withListHtml errEnv 1 (.ok "")) 1 ∧
    main errEnv wArgs [] = main (withViewHtml errEnv "7" (.ok "")) wArgs [] :=
  ⟨claim8_error_isolation.1 errEnv 1 1 rfl,
    claim8_error_isolation.2 errEnv wArgs [] "7" rfl⟩

/-- C9: at most one file is ever written per (article id, extension)
pair: the output path is a function of the article id and the
extension alone (descriptors sharing an extension share the target),
once the target exists a same-extension descriptor is skipped with the
tally still incremented, at most one successful POST ever targets any
single path, and hence at most one successful POST exists per
(article id, extension) pair. -/
theorem claim9_one_file_per_pair (env : Env) (a : Args) (fs0 : FS) :
    (∀ (outdir ntt : String) (f g : FileInfo), f.ext = g.ext →
      outPath outdir ntt f.ext = outPath outdir ntt g.ext)
    ∧ (∀ (st : St) (ntt : String) (f : FileInfo) (s : Nat),
        f.ext ∈ acceptedExts →
        st.fs.read (outPath a.outdir ntt f.ext) = some s →
        processFile env a.outdir ntt st f =
          { st with tally := st.tally.bump f.ext })
    ∧ (∀ p : String, succCount (main env a fs0).posts p ≤ 1)
    ∧ (∀ ntt e : String,
        List.countP
          (fun pp => decide (pp.ntt = ntt ∧ pp.ext = e ∧ pp.size ≠ 0))
          (main env a fs0).posts ≤ 1) := by
  refine ⟨?_, ?_, ?_, ?_⟩
  · intro outdir ntt f g hfg
    rw [hfg]
  · intro st ntt f s hacc hsome
    rw [processFile, if_pos hacc, hsome]
  · intro p
    exact ((main_inv env a fs0).2.2 p).1
  · intro ntt e
    have hmono : List.countP
        (fun pp => decide (pp.ntt = ntt ∧ pp.ext = e ∧ pp.size ≠ 0))
        (main env a fs0).posts ≤
        succCount (main env a fs0).posts (outPath a.outdir ntt e) := by
      apply List.countP_mono_left
      intro pp hpp hdec
      have hd := of_decide_eq_true hdec
      have hshape := (main_inv env a fs0).2.1 pp hpp
      have hpath : pp.path = outPath a.outdir ntt e := by
        rw [hshape.2.1, hd.1, hd.2.1]
      exact decide_eq_true ⟨hpath, hd.2.2⟩
    exact le_trans hmono (((main_inv env a fs0).2.2 _).1)

/-- Witness for C9: two descriptors with different handles but the hwp
extension share the output path, and a same-extension descriptor whose
target exists is skipped with the tally incremented. -/
theorem claim9_witness :
    outPath "d" "1001" (⟨"55", "1", "hwp"⟩ : FileInfo).ext =
      outPath "d" "1001" (⟨"77", "3", "hwp"⟩ : FileInfo).ext ∧
    processFile wEnv "d" "1" wSt wFile =
      { wSt with tally := wSt.tally.bump "hwp" } :=
  ⟨(claim9_one_file_per_pair wEnv wArgs []).1 "d" "1001"
      ⟨"55", "1", "hwp"⟩ ⟨"77", "3", "hwp"⟩ (by decide),
    (claim9_one_file_per_pair wEnv wArgs []).2.1 wSt "1" wFile 321
      (by decide) (by decide)⟩

/-- C10: the orchestrator processes exactly the collected ids,
deduplicated and in ascending Python string order — the processed
sequence is the sorted deduplication of the collected ids, it is
sorted and duplicate-free, contains exactly the collected ids, is
determined by the set of collected ids alone, and `"999"` sorts after
`"1000"`. -/
theorem claim10_sorted_order (env : Env) (a : Args) (fs0 : FS) :
    (main env a fs0).articles = sortIds (collectIds env a.pages)
    ∧ List.Sorted pyStrLe (main env a fs0).articles
    ∧ (main env a fs0).articles.Nodup
    ∧ (∀ x, x ∈ (main env a fs0).articles ↔ x ∈ collectIds env a.pages)
    ∧ (∀ l1 l2 : List String, l1.toFinset = l2.toFinset →
        sortIds l1 = sortIds l2)
    ∧ sortIds ["999", "1000"] = ["1000", "999"] := by
  have harts : (main env a fs0).articles =
      sortIds (collectIds env a.pages) := by
    unfold main
    rw [foldl_processArticle_articles]
    rfl
  have hperm : ∀ l : List String, List.Perm (sortIds l) (dedupFirst l) :=
    fun l => List.perm_insertionSort pyStrLe (dedupFirst l)
  refine ⟨harts, ?_, ?_, ?_, ?_, by decide⟩
  · rw [harts]
    exact List.sorted_insertionSort pyStrLe (dedupFirst _)
  · rw [harts]
    exact ((hperm _).nodup_iff).mpr (dedupFirst_nodup _)
  · intro x
    rw [harts]
    rw [(hperm _).mem_iff]
    exact mem_dedupFirst _ x
  · intro l1 l2 hset
    have hd : List.Perm (dedupFirst l1) (dedupFirst l2) := by
      apply List.perm_of_nodup_nodup_toFinset_eq (dedupFirst_nodup _)
        (dedupFirst_nodup _)
      have h1 : (dedupFirst l1).toFinset = l1.toFinset := by
        apply Finset.ext
        intro x
        simp only [List.mem_toFinset]
        exact mem_dedupFirst _ x
      have h2 : (dedupFirst l2).toFinset = l2.toFinset := by
        apply Finset.ext
        intro x
        simp only [List.mem_toFinset]
        exact mem_dedupFirst _ x
      rw [h1, h2, hset]
    have hp : List.Perm (sortIds l1) (sortIds l2) :=
      (hperm l1).trans (hd.trans (hperm l2).symm)
    exact List.eq_of_perm_of_sorted hp
      (List.sorted_insertionSort pyStrLe (dedupFirst l1))
      (List.sorted_insertionSort pyStrLe (dedupFirst l2))

/-- Witness for C10: two collected lists with the same id set sort to
the same processing order, and a concrete run processes the sorted
deduplicated ids. -/
theorem claim10_witness :
    sortIds ["1001", "1001", "1002"] = sortIds ["1002", "1001"] ∧
    (main wEnv wArgs []).articles = sortIds (collectIds wEnv 1) :=
  ⟨(claim10_sorted_order wEnv wArgs []).2.2.2.2.1
      ["1001", "1001", "1002"] ["1002", "1001"] (by decide),
    (claim10_sorted_order wEnv wArgs []).1⟩

end MsitDl
